import Mathlib

/-!
Verification of the SSE (Server-Sent Events) streaming parser of
`fetch/sse/sse.go`: the `EOLSplitter` line tokenizer, the `bufio.Scanner`
driving loop that feeds it chunks of bytes, and the `Scanner` event
assembler (`Scanner.Next`).

Modelling conventions:
* A byte is a `Nat` (values 0..255 in practice; `13` = CR, `10` = LF).
* A byte stream delivered in chunks is a `List (List Nat)`: one inner list
  per successful `Read` of the underlying reader.
* Go's index-based scanning loops are rendered as structural recursion on
  the unscanned suffix, carrying the already-scanned prefix `acc`
  (so `acc ++ rest` is the Go slice and the loop index is `acc.length`).
  This keeps every function kernel-computable.
* `bufio.Scanner` is modelled by `scanTokens`: it reads a chunk whenever
  the buffer is empty (bufio only calls the split function when buffered
  data exists or EOF was seen), and once the final chunk has been read it
  calls the split function with `atEOF = true`.  Real `bufio` may insert
  extra calls with `atEOF = false` that return `(0, nil)` before the EOF
  is discovered by a further `Read`; those calls produce no token and do
  not advance, so the token sequence is unchanged (a reader may also
  return the final bytes together with `io.EOF`, which is exactly the
  modelled behaviour).  The 64KiB `bufio` buffer cap is not modelled.
* `strings.TrimSpace` is modelled over single bytes with the ASCII part of
  `unicode.IsSpace`; multi-byte UTF-8 white-space code points are outside
  the model.
-/

/-- The persistent state of `EOLSplitter` (sse.go line 19): whether the
previous invocation ended on an unresolved carriage return. -/
structure EOLSplitter where
  prevCR : Bool
deriving DecidableEq

/-- The scanning for-loop of `EOLSplitter.Split` (sse.go lines 41-70),
including the fall-through returns after the loop.  `acc` is the already
scanned prefix `data[:i]` and the list argument is the suffix `data[i:]`;
the Go loop index `i` is `acc.length`.  Returns
(new `prevCR`, advance, token). -/
def splitLoop (atEOF : Bool) (acc : List Nat) : List Nat → Bool × Nat × Option (List Nat)
  | [] =>
    -- after the loop: at EOF a final non-terminated line is returned
    if atEOF ∧ ¬acc.isEmpty then (false, acc.length, some acc)
    else (false, 0, none)
  | b :: rest =>
    if b = 13 then
      -- CR: `i+1 < len(data) && data[i+1] == LF` is `rest.head? = some 10`
      if rest.head? = some 10 then (false, acc.length + 2, some acc)
      else if ¬atEOF ∧ rest.isEmpty then
        -- CR is the last byte and more input may arrive: save state
        (true, 0, none)
      else (false, acc.length + 1, some acc)
    else if b = 10 then (false, acc.length + 1, some acc)
    else splitLoop atEOF (acc ++ [b]) rest

/-- `EOLSplitter.Split` (sse.go lines 31-71).  Clears `prevCR`; skips a
leading LF that completes a `\r\n` pair whose CR was seen at the end of
the previous call; otherwise scans from position 0. -/
def EOLSplitter.Split (s : EOLSplitter) (data : List Nat) (atEOF : Bool) :
    EOLSplitter × Nat × Option (List Nat) :=
  if s.prevCR ∧ data.head? = some 10 then (⟨false⟩, 1, none)
  else (⟨(splitLoop atEOF [] data).1⟩, (splitLoop atEOF [] data).2)

/-- One pass reference line splitter: the tokens `EOLSplitter` produces on
a byte sequence that is entirely available with EOF signalled.  `acc` is
the current line prefix; `pend` records that the previous byte was a CR
whose line was already emitted, so one following LF is skipped. -/
def splitLinesAux : Bool → List Nat → List Nat → List (List Nat)
  | _, acc, [] => if acc.isEmpty then [] else [acc]
  | pend, acc, b :: rest =>
    if pend ∧ b = 10 then splitLinesAux false acc rest
    else if b = 13 then acc :: splitLinesAux true [] rest
    else if b = 10 then acc :: splitLinesAux false [] rest
    else splitLinesAux false (acc ++ [b]) rest

/-- The line tokens of a complete byte sequence. -/
def splitLines (data : List Nat) : List (List Nat) :=
  splitLinesAux false [] data

/-- The `bufio.Scanner` loop driving `EOLSplitter.Split`: `buf` is the
buffered not-yet-consumed bytes, `chunks` the results of the remaining
`Read` calls.  A token-producing split advances and emits; advance without
a token consumes silently; `(0, none)` requests more data (or ends the
scan at EOF).  `EOLSplitter.Split` never returns a token with advance 0
(`Split_advance_of_token` below), so the `(st, 0, _)` arm reads. -/
def scanTokens : Bool → List Nat → List (List Nat) → List (List Nat)
  | p, [], c :: cs => scanTokens p c cs
  | _, [], [] => []
  | p, b :: bs, chunks =>
    match EOLSplitter.Split ⟨p⟩ (b :: bs) chunks.isEmpty with
    | (st, 0, _) =>
      match chunks with
      | [] => []
      | c :: cs => scanTokens st.prevCR (b :: bs ++ c) cs
    | (st, a + 1, some tok) => tok :: scanTokens st.prevCR ((b :: bs).drop (a + 1)) chunks
    | (st, a + 1, none) => scanTokens st.prevCR ((b :: bs).drop (a + 1)) chunks
termination_by _p buf chunks => chunks.length + buf.length + 2 * (chunks.map List.length).sum
decreasing_by
  all_goals simp_wf
  all_goals omega

/-! ### Characterization of `splitLoop` -/

/-- `splitLoop` requests more data only without consuming: a zero advance
never carries a token (hence the `(st, 0, _)` arm of `scanTokens` is
faithful to `bufio`, which would emit any token it was handed). -/
lemma splitLoop_none : ∀ (r acc : List Nat) (eof st : Bool) (a : Nat),
    splitLoop eof acc r = (st, a, none) → a = 0 := by
  intro r
  induction r with
  | nil =>
    intro acc eof st a h
    unfold splitLoop at h
    split at h <;> simp_all
  | cons b rest ih =>
    intro acc eof st a h
    by_cases hb13 : b = 13
    · subst hb13
      by_cases h10 : rest.head? = some 10
      · simp [splitLoop, h10] at h
      · simp [splitLoop, h10] at h
        split at h <;> simp_all
    · by_cases hb10 : b = 10
      · simp [splitLoop, hb13, hb10] at h
      · simp only [splitLoop, if_neg hb13, if_neg hb10] at h
        exact ih (acc ++ [b]) eof st a h

/-- At EOF, `splitLoop` on a non-empty input always produces a token. -/
lemma splitLoop_eof_none : ∀ (r acc : List Nat) (st : Bool) (a : Nat),
    splitLoop true acc r = (st, a, none) → acc ++ r = [] := by
  intro r
  induction r with
  | nil =>
    intro acc st a h
    unfold splitLoop at h
    split at h
    · simp_all
    · rename_i hcond
      simp only [true_and, not_not] at hcond
      simp only [List.append_nil]
      simpa using hcond
  | cons b rest ih =>
    intro acc st a h
    by_cases hb13 : b = 13
    · subst hb13
      by_cases h10 : rest.head? = some 10
      · simp [splitLoop, h10] at h
      · simp [splitLoop, h10] at h
    · by_cases hb10 : b = 10
      · simp [splitLoop, hb13, hb10] at h
      · simp only [splitLoop, if_neg hb13, if_neg hb10] at h
        have := ih (acc ++ [b]) st a h
        simp at this

/-- When `splitLoop` sets the pending-CR flag it consumed nothing, emitted
nothing, and the first unconsumed byte is not an LF (in fact the input is
`clean ++ [13]`, so its head is either the CR itself or a clean byte). -/
lemma splitLoop_pend : ∀ (r acc : List Nat) (eof : Bool) (a : Nat) (t : Option (List Nat)),
    (∀ b ∈ acc, b ≠ 13 ∧ b ≠ 10) →
    splitLoop eof acc r = (true, a, t) →
    a = 0 ∧ t = none ∧ ∀ b, (acc ++ r).head? = some b → b ≠ 10 := by
  intro r
  induction r with
  | nil =>
    intro acc eof a t hacc h
    unfold splitLoop at h
    split at h <;> simp_all
  | cons b rest ih =>
    intro acc eof a t hacc h
    by_cases hb13 : b = 13
    · subst hb13
      by_cases h10 : rest.head? = some 10
      · simp [splitLoop, h10] at h
      · simp [splitLoop, h10] at h
        split at h
        · simp only [Prod.mk.injEq, true_and] at h
          obtain ⟨ha, ht⟩ := h
          refine ⟨ha.symm, ht.symm, ?_⟩
          intro bb hbb
          cases acc with
          | nil =>
            simp at hbb
            omega
          | cons a0 acc' =>
            simp at hbb
            have := hacc a0 (by simp)
            omega
        · simp at h
    · by_cases hb10 : b = 10
      · simp [splitLoop, hb13, hb10] at h
      · simp only [splitLoop, if_neg hb13, if_neg hb10] at h
        have hacc' : ∀ x ∈ acc ++ [b], x ≠ 13 ∧ x ≠ 10 := by
          intro x hx
          rcases List.mem_append.mp hx with hx | hx
          · exact hacc x hx
          · simp at hx
            subst hx
            exact ⟨hb13, hb10⟩
        obtain ⟨ha, ht, hh⟩ := ih (acc ++ [b]) eof a t hacc' h
        refine ⟨ha, ht, ?_⟩
        intro bb hbb
        exact hh bb (by simpa [List.append_assoc] using hbb)

/-- A pending flag on the reference splitter is invisible unless the next
byte is an LF. -/
lemma splitLinesAux_pend_eq (acc r : List Nat)
    (h : ∀ b, r.head? = some b → b ≠ 10) :
    splitLinesAux true acc r = splitLinesAux false acc r := by
  cases r with
  | nil => rfl
  | cons b rest =>
    have hb : b ≠ 10 := h b rfl
    simp [splitLinesAux, hb]

/-- A token-producing call of `splitLoop` consumes at least one byte,
clears the pending flag, and peels exactly one line off the one-pass
reference splitter, for any continuation `extra` of the input (empty when
EOF was already signalled). -/
lemma splitLoop_some : ∀ (r acc : List Nat) (eof : Bool) (extra : List Nat),
    (eof = true → extra = []) →
    ∀ st a tok, splitLoop eof acc r = (st, a, some tok) →
      st = false ∧ 1 ≤ a ∧ acc.length ≤ a ∧
      splitLinesAux false acc (r ++ extra) =
        tok :: splitLinesAux false [] (r.drop (a - acc.length) ++ extra) := by
  intro r
  induction r with
  | nil =>
    intro acc eof extra hx st a tok h
    unfold splitLoop at h
    split at h
    · rename_i hcond
      simp only [Prod.mk.injEq, Option.some.injEq] at h
      obtain ⟨hst, ha, htok⟩ := h
      have hacc : acc ≠ [] := by simpa using hcond.2
      have hex : extra = [] := hx hcond.1
      subst hex
      refine ⟨hst.symm, ?_, ?_, ?_⟩
      · have := List.length_pos.mpr hacc
        omega
      · omega
      · subst htok
        subst ha
        simp [splitLinesAux, hacc]
    · simp at h
  | cons b rest ih =>
    intro acc eof extra hx st a tok h
    by_cases hb13 : b = 13
    · subst hb13
      by_cases h10 : rest.head? = some 10
      · obtain ⟨rest', hrest⟩ : ∃ rest', rest = 10 :: rest' := by
          clear h ih
          cases rest with
          | nil => simp at h10
          | cons r0 rest' =>
            simp at h10
            exact ⟨rest', by rw [h10]⟩
        subst hrest
        rw [show splitLoop eof acc (13 :: 10 :: rest') = (false, acc.length + 2, some acc) from
          by simp [splitLoop]] at h
        simp only [Prod.mk.injEq, Option.some.injEq] at h
        obtain ⟨hst, ha, htok⟩ := h
        subst htok
        refine ⟨hst.symm, by omega, by omega, ?_⟩
        have hdrop : a - acc.length = 2 := by omega
        rw [hdrop]
        simp [splitLinesAux]
      · simp [splitLoop, h10] at h
        split at h
        · simp at h
        · rename_i hcond
          simp only [Prod.mk.injEq, Option.some.injEq] at h
          obtain ⟨hst, ha, htok⟩ := h
          subst htok
          refine ⟨hst.symm, by omega, by omega, ?_⟩
          have hdrop : a - acc.length = 1 := by omega
          rw [hdrop]
          -- after emitting at the CR the reference splitter is in the
          -- pending state, which is invisible: the next byte is not LF
          have hnext : ∀ bb, (rest ++ extra).head? = some bb → bb ≠ 10 := by
            intro bb hbb
            cases rest with
            | nil =>
              have heof : eof = true := by
                by_cases he : eof
                · exact he
                · exact absurd ⟨by simpa using he, rfl⟩ hcond
              rw [hx heof] at hbb
              simp at hbb
            | cons r0 rest' =>
              simp at hbb
              subst hbb
              intro hc
              rw [hc] at h10
              simp at h10
          simp [splitLinesAux, List.drop_one]
          exact splitLinesAux_pend_eq [] (rest ++ extra) hnext
    · by_cases hb10 : b = 10
      · subst hb10
        rw [show splitLoop eof acc (10 :: rest) = (false, acc.length + 1, some acc) from
          by simp [splitLoop]] at h
        simp only [Prod.mk.injEq, Option.some.injEq] at h
        obtain ⟨hst, ha, htok⟩ := h
        subst htok
        refine ⟨hst.symm, by omega, by omega, ?_⟩
        have hdrop : a - acc.length = 1 := by omega
        rw [hdrop]
        simp [splitLinesAux, List.drop_one]
      · simp only [splitLoop, if_neg hb13, if_neg hb10] at h
        obtain ⟨hst, h1, hle, heq⟩ := ih (acc ++ [b]) eof extra hx st a tok h
        simp only [List.length_append, List.length_cons, List.length_nil] at hle
        refine ⟨hst, h1, by omega, ?_⟩
        have hstep : splitLinesAux false acc ((b :: rest) ++ extra) =
            splitLinesAux false (acc ++ [b]) (rest ++ extra) := by
          simp [splitLinesAux, hb13, hb10]
        rw [hstep, heq]
        have hdrop : a - acc.length = (a - (acc.length + 1)) + 1 := by omega
        rw [hdrop]
        simp [List.drop_succ_cons]

/-- `EOLSplitter.Split` never hands back a token without consuming input,
which justifies the `(st, 0, _)` arm of `scanTokens` reading more data. -/
lemma Split_advance_of_token (s : EOLSplitter) (data : List Nat) (atEOF : Bool)
    (tok : List Nat) (h : (s.Split data atEOF).2.2 = some tok) :
    1 ≤ (s.Split data atEOF).2.1 := by
  by_cases hc : s.prevCR ∧ data.head? = some 10
  · unfold EOLSplitter.Split at h
    rw [if_pos hc] at h
    simp at h
  · have hsplit : s.Split data atEOF =
        (⟨(splitLoop atEOF [] data).1⟩, (splitLoop atEOF [] data).2) := by
      unfold EOLSplitter.Split
      rw [if_neg hc]
    rcases hr : splitLoop atEOF [] data with ⟨st, a, t⟩
    rw [hr] at hsplit
    rw [hsplit] at h ⊢
    simp at h ⊢
    subst h
    obtain ⟨-, h1, -⟩ := splitLoop_some data [] atEOF [] (fun _ => rfl) st a tok hr
    exact h1

/-! ### Stepping `scanTokens` -/

lemma scanTokens_read (p : Bool) (c : List Nat) (cs : List (List Nat)) :
    scanTokens p [] (c :: cs) = scanTokens p c cs := by
  simp [scanTokens]

lemma scanTokens_stop (p : Bool) : scanTokens p [] [] = [] := by
  simp [scanTokens]

lemma scanTokens_emit (p : Bool) (b : Nat) (bs : List Nat) (chunks : List (List Nat))
    (st : EOLSplitter) (a : Nat) (tok : List Nat)
    (h : EOLSplitter.Split ⟨p⟩ (b :: bs) chunks.isEmpty = (st, a + 1, some tok)) :
    scanTokens p (b :: bs) chunks =
      tok :: scanTokens st.prevCR ((b :: bs).drop (a + 1)) chunks := by
  rw [scanTokens, h]

lemma scanTokens_more (p : Bool) (b : Nat) (bs c : List Nat) (cs : List (List Nat))
    (st : EOLSplitter) (t : Option (List Nat))
    (h : EOLSplitter.Split ⟨p⟩ (b :: bs) false = (st, 0, t)) :
    scanTokens p (b :: bs) (c :: cs) = scanTokens st.prevCR (b :: bs ++ c) cs := by
  rw [scanTokens]
  rw [show (c :: cs).isEmpty = false from rfl, h]

/-! ### The driven splitter agrees with the one-pass reference splitter -/

/-- Main invariant: driving `EOLSplitter.Split` through `bufio.Scanner`
over a buffer and any remaining chunked reads produces exactly the
one-pass line split of all remaining bytes.  The hypothesis on `p` is the
reachable-state invariant: the pending-CR flag is only ever set while the
unconsumed buffer still starts with the bytes that were scanned when it
was set (in particular it is non-empty and does not start with LF). -/
lemma scanTokens_eq_splitLines : ∀ (n : Nat) (p : Bool) (buf : List Nat)
    (chunks : List (List Nat)),
    chunks.length + buf.length + (chunks.map List.length).sum ≤ n →
    (p = true → buf ≠ [] ∧ buf.head? ≠ some 10) →
    scanTokens p buf chunks = splitLines (buf ++ chunks.flatten) := by
  intro n
  induction n with
  | zero =>
    intro p buf chunks hm hp
    obtain rfl : chunks = [] := by
      cases chunks with
      | nil => rfl
      | cons c cs => simp at hm
    obtain rfl : buf = [] := by
      cases buf with
      | nil => rfl
      | cons b bs => simp at hm
    rw [scanTokens_stop]
    simp [splitLines, splitLinesAux]
  | succ n ih =>
    intro p buf chunks hm hp
    cases buf with
    | nil =>
      cases chunks with
      | nil =>
        rw [scanTokens_stop]
        simp [splitLines, splitLinesAux]
      | cons c cs =>
        obtain rfl : p = false := by
          cases p
          · rfl
          · exact absurd rfl (hp rfl).1
        rw [scanTokens_read]
        rw [ih false c cs (by simp at hm ⊢; omega) (by simp)]
        simp [splitLines]
    | cons b bs =>
      rcases hr : splitLoop chunks.isEmpty [] (b :: bs) with ⟨st, a, t⟩
      have hcond : ¬((⟨p⟩ : EOLSplitter).prevCR ∧ (b :: bs).head? = some 10) := by
        intro hc
        exact (hp hc.1).2 hc.2
      have hS : EOLSplitter.Split ⟨p⟩ (b :: bs) chunks.isEmpty = (⟨st⟩, a, t) := by
        unfold EOLSplitter.Split
        rw [if_neg hcond, hr]
      cases t with
      | some tok =>
        obtain ⟨hst, ha1, -, heq⟩ :=
          splitLoop_some (b :: bs) [] chunks.isEmpty chunks.flatten
            (by
              intro he
              cases chunks with
              | nil => rfl
              | cons c cs => simp at he)
            st a tok hr
        subst hst
        obtain ⟨a', rfl⟩ : ∃ a', a = a' + 1 := ⟨a - 1, by omega⟩
        rw [scanTokens_emit p b bs chunks ⟨false⟩ a' tok hS]
        unfold splitLines
        rw [heq]
        simp only [List.length_nil, Nat.sub_zero]
        have hrec := ih false ((b :: bs).drop (a' + 1)) chunks
          (by
            have hd : ((b :: bs).drop (a' + 1)).length = (b :: bs).length - (a' + 1) :=
              List.length_drop _ _
            simp only [List.length_cons] at hm hd ⊢
            omega)
          (by simp)
        unfold splitLines at hrec
        rw [hrec]
      | none =>
        have ha0 : a = 0 := splitLoop_none (b :: bs) [] chunks.isEmpty st a hr
        subst ha0
        cases chunks with
        | nil =>
          have hemp := splitLoop_eof_none (b :: bs) [] st 0 (by simpa using hr)
          simp at hemp
        | cons c cs =>
          simp only [List.isEmpty_cons] at hr hS
          rw [scanTokens_more p b bs c cs ⟨st⟩ none hS]
          have hinv : st = true → (b :: bs ++ c) ≠ [] ∧ (b :: bs ++ c).head? ≠ some 10 := by
            intro hst
            subst hst
            obtain ⟨-, -, hh⟩ := splitLoop_pend (b :: bs) [] false 0 none (by simp) hr
            refine ⟨by simp, ?_⟩
            intro hc
            have hb : b = 10 := by simpa using hc
            exact (hh b (by simp)) hb
          rw [ih st (b :: bs ++ c) cs
            (by
              simp only [List.length_cons, List.map_cons, List.sum_cons,
                List.length_append] at hm ⊢
              omega)
            hinv]
          simp [splitLines, List.append_assoc]

/-- The full `bufio.Scanner` run from the initial splitter state over any
chunked delivery yields the one-pass line split of the concatenation. -/
lemma scanTokens_run (chunks : List (List Nat)) :
    scanTokens false [] chunks = splitLines chunks.flatten := by
  have h := scanTokens_eq_splitLines
    (chunks.length + (chunks.map List.length).sum) false [] chunks
    (by simp) (by simp)
  simpa using h

/-! ### The event assembler (`Scanner`) -/

/-- `ServerSentEvent` (sse.go lines 73-79).  Strings are byte lists;
`Retry` is a Go `int`. -/
structure ServerSentEvent where
  ID : List Nat
  Data : List Nat
  Event : List Nat
  Retry : Int
  Comment : List Nat
deriving DecidableEq

/-- The zero value `var event ServerSentEvent`. -/
def ServerSentEvent.zero : ServerSentEvent :=
  { ID := [], Data := [], Event := [], Retry := 0, Comment := [] }

/-- `unicode.IsSpace` on the single-byte code points (the bytes Go's
`strings.TrimSpace` can trim inside ASCII text). -/
def isSpaceByte (b : Nat) : Bool :=
  b = 9 ∨ b = 10 ∨ b = 11 ∨ b = 12 ∨ b = 13 ∨ b = 32

/-- `strings.TrimSpace`: drop white-space bytes from both ends. -/
def trimSpace (l : List Nat) : List Nat :=
  ((l.dropWhile isSpaceByte).reverse.dropWhile isSpaceByte).reverse

/-- `strings.TrimPrefix`. -/
def trimPrefix (l pre : List Nat) : List Nat :=
  if pre.isPrefixOf l then l.drop pre.length else l

/-- The bytes of `"id: "`. -/
def idColon : List Nat := [105, 100, 58, 32]

/-- The bytes of `"data: "`. -/
def dataColon : List Nat := [100, 97, 116, 97, 58, 32]

/-- The bytes of `"event: "`. -/
def eventColon : List Nat := [101, 118, 101, 110, 116, 58, 32]

/-- The bytes of `"retry: "`. -/
def retryColon : List Nat := [114, 101, 116, 114, 121, 58, 32]

/-- Digit-run parser underlying `strconv.Atoi`. -/
def parseDigitsAux : Nat → List Nat → Option Nat
  | acc, [] => some acc
  | acc, b :: bs =>
    if 48 ≤ b ∧ b ≤ 57 then parseDigitsAux (acc * 10 + (b - 48)) bs
    else none

/-- `strconv.Atoi` (= `ParseInt` base 10, 64-bit): optional sign, at least
one digit, nothing else, and the value must fit in a signed 64-bit `int`
(out-of-range input is an `ErrRange` error, i.e. `none`). -/
def Atoi (l : List Nat) : Option Int :=
  match l with
  | [] => none
  | b :: bs =>
    let neg : Bool := b = 45
    let ds : List Nat := if b = 45 ∨ b = 43 then bs else b :: bs
    match ds with
    | [] => none
    | _ :: _ =>
      match parseDigitsAux 0 ds with
      | none => none
      | some n =>
        let v : Int := if neg then -(n : Int) else (n : Int)
        if -(2 ^ 63) ≤ v ∧ v < 2 ^ 63 then some v else none

/-- The local state of the `Scanner.Next` loop (sse.go lines 149-189):
the working event, accumulated `data:` payloads, the
`seenNonEmptyLine` flag, and the tokens left unread when the loop ends. -/
structure NextState where
  event : ServerSentEvent
  dataLines : List (List Nat)
  seen : Bool
  rest : List (List Nat)
deriving DecidableEq

/-- The `for s.scanner.Scan()` loop of `Scanner.Next` (sse.go lines
156-189), over the line tokens the underlying `bufio.Scanner` will
deliver.  Each token is whitespace-trimmed; a blank line terminates the
event once a non-blank line was seen; otherwise the line is classified by
literal prefix in the order of the Go `switch`. -/
def nextLoop (readComment : Bool) (event : ServerSentEvent)
    (dataLines : List (List Nat)) (seen : Bool) :
    List (List Nat) → NextState
  | [] => ⟨event, dataLines, seen, []⟩
  | t :: ts =>
    let line := trimSpace t
    if line = [] then
      if seen then ⟨event, dataLines, seen, ts⟩
      else nextLoop readComment event dataLines seen ts
    else
      if idColon.isPrefixOf line then
        nextLoop readComment { event with ID := trimPrefix line idColon } dataLines true ts
      else if dataColon.isPrefixOf line then
        nextLoop readComment event (dataLines ++ [trimPrefix line dataColon]) true ts
      else if eventColon.isPrefixOf line then
        nextLoop readComment { event with Event := trimPrefix line eventColon } dataLines true ts
      else if retryColon.isPrefixOf line then
        match Atoi (trimPrefix line retryColon) with
        | some retry => nextLoop readComment { event with Retry := retry } dataLines true ts
        | none => nextLoop readComment event dataLines true ts
      else if [58].isPrefixOf line then
        nextLoop readComment
          (if readComment then { event with Comment := trimPrefix line [58] } else event)
          dataLines true ts
      else
        nextLoop readComment event dataLines true ts

/-- The `Scanner` (sse.go lines 86-93): the comment-capture option, the
last produced event (`s.next`), and the line tokens the underlying
`bufio.Scanner` still has to deliver.  The byte-level reader is connected
through `sseEvents` below; the error field is not modelled (a pure byte
source never fails). -/
structure Scanner where
  readComment : Bool
  next : ServerSentEvent
  tokens : List (List Nat)
deriving DecidableEq

/-- `Scanner.Next` (sse.go lines 147-201): zero the working event, run the
line loop, and either report `false` (nothing but blank lines were left)
or store the assembled event, with `Data` the `\n`-join of the `data:`
payloads, and report `true`. -/
def Scanner.Next (s : Scanner) : Bool × Scanner :=
  let r := nextLoop s.readComment ServerSentEvent.zero [] false s.tokens
  let assembled := { r.event with Data := List.intercalate [10] r.dataLines }
  if r.seen then (true, { s with next := assembled, tokens := r.rest })
  else (false, { s with next := ServerSentEvent.zero, tokens := r.rest })

/-- One iteration of the `Next` loop either terminates at a blank line
(only once a non-blank line was seen) or recurses on the remaining
tokens. -/
lemma nextLoop_step (rc : Bool) (e : ServerSentEvent) (d : List (List Nat)) (seen : Bool)
    (t : List Nat) (ts : List (List Nat)) :
    (seen = true ∧ nextLoop rc e d seen (t :: ts) = ⟨e, d, seen, ts⟩) ∨
    (∃ e' d' s', nextLoop rc e d seen (t :: ts) = nextLoop rc e' d' s' ts) := by
  simp only [nextLoop]
  split
  · split
    · rename_i hseen
      exact Or.inl ⟨hseen, rfl⟩
    · exact Or.inr ⟨e, d, seen, rfl⟩
  · split
    · exact Or.inr ⟨_, _, _, rfl⟩
    · split
      · exact Or.inr ⟨_, _, _, rfl⟩
      · split
        · exact Or.inr ⟨_, _, _, rfl⟩
        · split
          · split
            · exact Or.inr ⟨_, _, _, rfl⟩
            · exact Or.inr ⟨_, _, _, rfl⟩
          · split
            · exact Or.inr ⟨_, _, _, rfl⟩
            · exact Or.inr ⟨_, _, _, rfl⟩

/-- The loop never invents tokens: what is left is a suffix of the input. -/
lemma nextLoop_rest_le (rc : Bool) :
    ∀ (ts : List (List Nat)) (e : ServerSentEvent) (d : List (List Nat)) (seen : Bool),
      (nextLoop rc e d seen ts).rest.length ≤ ts.length := by
  intro ts
  induction ts with
  | nil =>
    intro e d seen
    simp [nextLoop]
  | cons t ts ih =>
    intro e d seen
    rcases nextLoop_step rc e d seen t ts with ⟨-, heq⟩ | ⟨e', d', s', heq⟩
    · rw [heq]
      simp
    · rw [heq]
      exact le_trans (ih e' d' s') (by simp)

/-- If the loop starts before any non-blank line and ends having seen one,
it consumed at least one token. -/
lemma nextLoop_seen_lt (rc : Bool) :
    ∀ (ts : List (List Nat)) (e : ServerSentEvent) (d : List (List Nat)),
      (nextLoop rc e d false ts).seen = true →
      (nextLoop rc e d false ts).rest.length < ts.length := by
  intro ts
  induction ts with
  | nil =>
    intro e d h
    simp [nextLoop] at h
  | cons t ts ih =>
    intro e d h
    rcases nextLoop_step rc e d false t ts with ⟨hseen, -⟩ | ⟨e', d', s', heq⟩
    · simp at hseen
    · rw [heq] at h ⊢
      cases s' with
      | false => exact lt_trans (ih e' d' h) (by simp)
      | true => exact lt_of_le_of_lt (nextLoop_rest_le rc ts e' d' true) (by simp)

/-- A successful `Next` consumed at least one token. -/
lemma Next_true_lt (s : Scanner) (h : (Scanner.Next s).1 = true) :
    (Scanner.Next s).2.tokens.length < s.tokens.length := by
  unfold Scanner.Next at h ⊢
  by_cases hs : (nextLoop s.readComment ServerSentEvent.zero [] false s.tokens).seen = true
  · rw [if_pos hs] at h ⊢
    exact nextLoop_seen_lt s.readComment s.tokens ServerSentEvent.zero [] hs
  · rw [if_neg hs] at h
    simp at h

/-- The event sequence the caller obtains by iterating `Scanner.Next`
until it reports `false`. -/
def scanEvents (s : Scanner) : List ServerSentEvent :=
  match hn : Scanner.Next s with
  | (false, _) => []
  | (true, s') => s'.next :: scanEvents s'
termination_by s.tokens.length
decreasing_by
  have hlt := Next_true_lt s (by rw [hn])
  rw [hn] at hlt
  exact hlt

/-- The complete pipeline (sse.go `NewScanner` + iterated `Next`): split
the chunked byte stream into line tokens with a fresh `EOLSplitter`, then
assemble events, with comment capture as configured. -/
def sseEvents (readComment : Bool) (chunks : List (List Nat)) : List ServerSentEvent :=
  scanEvents { readComment := readComment, next := ServerSentEvent.zero,
               tokens := scanTokens false [] chunks }

lemma scanEvents_false (s : Scanner) (h : (Scanner.Next s).1 = false) :
    scanEvents s = [] := by
  rw [scanEvents]
  rcases hn : Scanner.Next s with ⟨b, s'⟩
  rw [hn] at h
  subst h
  rfl

lemma scanEvents_true (s s' : Scanner) (h : Scanner.Next s = (true, s')) :
    scanEvents s = s'.next :: scanEvents s' := by
  rw [scanEvents]
  rw [h]

/-! ### Helper lemmas for trimming, prefixes, and data lines -/

/-- A list whose first and last bytes are not white space is untouched by
`trimSpace`. -/
lemma trimSpace_eq_self (l : List Nat)
    (h1 : ∀ b, l.head? = some b → isSpaceByte b = false)
    (h2 : ∀ b, l.getLast? = some b → isSpaceByte b = false) :
    trimSpace l = l := by
  unfold trimSpace
  have hd : l.dropWhile isSpaceByte = l := by
    cases l with
    | nil => rfl
    | cons a l' =>
      rw [List.dropWhile_cons, if_neg]
      simp [h1 a rfl]
  rw [hd]
  have hd2 : l.reverse.dropWhile isSpaceByte = l.reverse := by
    cases hr : l.reverse with
    | nil => rfl
    | cons a r' =>
      have ha : l.getLast? = some a := by
        rw [← List.head?_reverse, hr]
        rfl
      rw [List.dropWhile_cons, if_neg]
      simp [h2 a ha]
  rw [hd2, List.reverse_reverse]

/-- `trimPrefix` with the prefix present drops exactly it. -/
lemma trimPrefix_append (pre l : List Nat) : trimPrefix (pre ++ l) pre = l := by
  unfold trimPrefix
  rw [if_pos, List.drop_left]
  exact List.isPrefixOf_iff_prefix.mpr (List.prefix_append pre l)

/-- Processing one `data: ` line: the payload is appended to the
accumulated data lines and the non-blank flag is set. -/
lemma nextLoop_data_step (rc : Bool) (e : ServerSentEvent) (d : List (List Nat))
    (seen : Bool) (p : List Nat) (ts : List (List Nat)) (hp : p ≠ [])
    (_hclean : ∀ b ∈ p, b ≠ 13 ∧ b ≠ 10)
    (hlast : ∀ b, p.getLast? = some b → isSpaceByte b = false) :
    nextLoop rc e d seen ((dataColon ++ p) :: ts) = nextLoop rc e (d ++ [p]) true ts := by
  have htr : trimSpace (dataColon ++ p) = dataColon ++ p := by
    apply trimSpace_eq_self
    · intro b hb
      have hb' : 100 = b := by simpa [dataColon] using hb
      subst hb'
      decide
    · intro b hb
      rw [List.getLast?_append_of_ne_nil dataColon hp] at hb
      exact hlast b hb
  have hid : idColon.isPrefixOf (dataColon ++ p) = false := by
    simp [idColon, dataColon, List.isPrefixOf]
  have hdata : dataColon.isPrefixOf (dataColon ++ p) = true :=
    List.isPrefixOf_iff_prefix.mpr (List.prefix_append dataColon p)
  simp only [nextLoop, htr, hid, hdata]
  rw [if_neg (by simp [dataColon]), if_neg (by simp [hid]), if_pos (by simp [hdata]),
    trimPrefix_append]

/-- A blank line after a non-blank line stops the loop. -/
lemma nextLoop_blank_stop (rc : Bool) (e : ServerSentEvent) (d : List (List Nat))
    (ts : List (List Nat)) :
    nextLoop rc e d true ([] :: ts) = ⟨e, d, true, ts⟩ := by
  simp [nextLoop, trimSpace]

/-- A run of non-empty `data: ` lines accumulates all payloads in order
and sets the non-blank flag. -/
lemma nextLoop_data_run (rc : Bool) : ∀ (ps : List (List Nat)) (e : ServerSentEvent)
    (d : List (List Nat)) (seen : Bool) (ts : List (List Nat)), ps ≠ [] →
    (∀ p ∈ ps, p ≠ [] ∧ (∀ b ∈ p, b ≠ 13 ∧ b ≠ 10) ∧
      ∀ b, p.getLast? = some b → isSpaceByte b = false) →
    nextLoop rc e d seen (ps.map (fun p => dataColon ++ p) ++ ts) =
      nextLoop rc e (d ++ ps) true ts := by
  intro ps
  induction ps with
  | nil =>
    intro e d seen ts hne hps
    exact absurd rfl hne
  | cons p ps' ih =>
    intro e d seen ts hne hps
    obtain ⟨hp, hclean, hlast⟩ := hps p (by simp)
    cases ps' with
    | nil =>
      simp only [List.map_cons, List.map_nil, List.nil_append, List.cons_append]
      rw [nextLoop_data_step rc e d seen p ts hp hclean hlast]
    | cons q qs =>
      simp only [List.map_cons, List.cons_append]
      rw [nextLoop_data_step rc e d seen p _ hp hclean hlast]
      have hih := ih e (d ++ [p]) true ts (by simp) (fun r hr => hps r (by simp [hr]))
      simp only [List.map_cons, List.cons_append] at hih
      rw [hih]
      simp

/-! ### Line-ending styles and encodings of line sequences -/

/-- The three line terminators the splitter recognizes. -/
inductive EOLStyle where
  | crlf
  | cr
  | lf
deriving DecidableEq, BEq

/-- The bytes of a line terminator. -/
def eolBytes : EOLStyle → List Nat
  | .crlf => [13, 10]
  | .cr => [13]
  | .lf => [10]

/-- A sequence of (line contents, terminator style) pairs rendered to a
byte stream. -/
def encodeLines : List (List Nat × EOLStyle) → List Nat
  | [] => []
  | (l, s) :: rest => l ++ eolBytes s ++ encodeLines rest

/-- A canonical encoding: line contents are free of CR and LF, and a bare
CR terminator is never directly followed by an LF byte (the greedy
splitter would read that as one CRLF terminator).  The decomposition of
any actual byte stream into lines has this shape.  The trailing `tail` is
a final unterminated line, also free of CR and LF. -/
def wellFormedEnc : List (List Nat × EOLStyle) → List Nat → Bool
  | [], tail => tail.all fun b => b ≠ 13 ∧ b ≠ 10
  | (l, s) :: rest, tail =>
    (l.all fun b => b ≠ 13 ∧ b ≠ 10) &&
    (s ≠ EOLStyle.cr || (encodeLines rest ++ tail).head? ≠ some 10) &&
    wellFormedEnc rest tail

/-- On input all of whose bytes are ordinary, the reference splitter
returns the single accumulated line (or nothing when it is empty). -/
lemma splitLinesAux_clean : ∀ (l acc : List Nat), (∀ b ∈ l, b ≠ 13 ∧ b ≠ 10) →
    splitLinesAux false acc l = if (acc ++ l).isEmpty then [] else [acc ++ l] := by
  intro l
  induction l with
  | nil =>
    intro acc hl
    simp [splitLinesAux]
  | cons b rest ih =>
    intro acc hl
    obtain ⟨hb13, hb10⟩ := hl b (by simp)
    rw [show splitLinesAux false acc (b :: rest) = splitLinesAux false (acc ++ [b]) rest from
      by simp [splitLinesAux, hb13, hb10]]
    rw [ih (acc ++ [b]) (fun x hx => hl x (by simp [hx]))]
    simp

/-- Splitting one terminated line off the front of a stream.  For a bare
CR terminator the rest of the stream must not begin with LF. -/
lemma splitLinesAux_line : ∀ (l acc : List Nat), (∀ b ∈ l, b ≠ 13 ∧ b ≠ 10) →
    ∀ (s : EOLStyle) (rest : List Nat),
    (s = EOLStyle.cr → rest.head? ≠ some 10) →
    splitLinesAux false acc (l ++ eolBytes s ++ rest) =
      (acc ++ l) :: splitLinesAux false [] rest := by
  intro l
  induction l with
  | nil =>
    intro acc hl s rest hcr
    cases s with
    | crlf => simp [eolBytes, splitLinesAux]
    | cr =>
      simp only [eolBytes, List.nil_append, List.append_nil, List.cons_append]
      rw [show splitLinesAux false acc (13 :: rest) = acc :: splitLinesAux true [] rest from
        by simp [splitLinesAux]]
      rw [splitLinesAux_pend_eq [] rest (fun b hb hb10 => (hcr rfl) (by rw [← hb10, hb]))]
    | lf => simp [eolBytes, splitLinesAux]
  | cons b l' ih =>
    intro acc hl s rest hcr
    obtain ⟨hb13, hb10⟩ := hl b (by simp)
    simp only [List.cons_append]
    rw [show splitLinesAux false acc (b :: (l' ++ eolBytes s ++ rest)) =
      splitLinesAux false (acc ++ [b]) (l' ++ eolBytes s ++ rest) from
      by simp [splitLinesAux, hb13, hb10]]
    rw [ih (acc ++ [b]) (fun x hx => hl x (by simp [hx])) s rest hcr]
    simp

/-- Splitting a stream of LF-terminated lines recovers exactly the lines. -/
lemma splitLines_lf_encode : ∀ (xs : List (List Nat)),
    (∀ l ∈ xs, ∀ b ∈ l, b ≠ 13 ∧ b ≠ 10) →
    splitLines (xs.map fun l => l ++ [10]).flatten = xs := by
  intro xs
  induction xs with
  | nil =>
    intro hxs
    simp [splitLines, splitLinesAux]
  | cons l xs' ih =>
    intro hxs
    simp only [List.map_cons, List.flatten_cons]
    unfold splitLines
    rw [show (l ++ [10]) ++ (xs'.map fun l => l ++ [10]).flatten =
      l ++ eolBytes EOLStyle.lf ++ (xs'.map fun l => l ++ [10]).flatten from rfl]
    rw [splitLinesAux_line l [] (hxs l (by simp)) EOLStyle.lf _ (by intro h; cases h)]
    rw [show splitLinesAux false [] (xs'.map fun l => l ++ [10]).flatten =
      splitLines (xs'.map fun l => l ++ [10]).flatten from rfl]
    rw [ih (fun r hr => hxs r (by simp [hr]))]
    simp

/-- Splitting a canonically encoded stream recovers the line contents,
followed by the split of the unterminated tail. -/
lemma splitLines_encode : ∀ (pairs : List (List Nat × EOLStyle)) (tail : List Nat),
    wellFormedEnc pairs tail = true →
    splitLines (encodeLines pairs ++ tail) =
      pairs.map Prod.fst ++ splitLines tail := by
  intro pairs
  induction pairs with
  | nil =>
    intro tail h
    simp [encodeLines, splitLines]
  | cons p rest ih =>
    intro tail h
    rcases p with ⟨l, s⟩
    rw [wellFormedEnc] at h
    simp only [Bool.and_eq_true, List.all_eq_true, decide_eq_true_eq, Bool.or_eq_true,
      bne_iff_ne, ne_eq, Bool.not_eq_true', decide_eq_false_iff_not] at h
    obtain ⟨⟨hl, hcr⟩, hrest⟩ := h
    unfold splitLines
    rw [show encodeLines ((l, s) :: rest) ++ tail =
      l ++ eolBytes s ++ (encodeLines rest ++ tail) from by
        simp [encodeLines, List.append_assoc]]
    rw [splitLinesAux_line l [] hl s (encodeLines rest ++ tail)
      (by
        intro hs h10
        rcases hcr with hcr | hcr
        · exact hcr hs
        · exact hcr h10)]
    have hrec := ih tail hrest
    unfold splitLines at hrec
    rw [hrec]
    simp

/-- A list of ordinary bytes does not start with LF. -/
lemma clean_head_not10 (x : List Nat) (h : ∀ b ∈ x, b ≠ 13 ∧ b ≠ 10) :
    x.head? ≠ some 10 := by
  cases x with
  | nil => simp
  | cons a r =>
    simpa using (h a (by simp)).2

/-- A well-formed encoding has CR/LF-free line contents and tail. -/
lemma wellFormedEnc_clean : ∀ (pairs : List (List Nat × EOLStyle)) (tail : List Nat),
    wellFormedEnc pairs tail = true →
    (∀ p ∈ pairs, ∀ b ∈ Prod.fst p, b ≠ 13 ∧ b ≠ 10) ∧
      (∀ b ∈ tail, b ≠ 13 ∧ b ≠ 10) := by
  intro pairs
  induction pairs with
  | nil =>
    intro tail h
    rw [wellFormedEnc] at h
    simp only [List.all_eq_true, decide_eq_true_eq] at h
    exact ⟨by simp, h⟩
  | cons p rest ih =>
    intro tail h
    rcases p with ⟨l, s⟩
    rw [wellFormedEnc] at h
    simp only [Bool.and_eq_true, List.all_eq_true, decide_eq_true_eq] at h
    obtain ⟨⟨hl, -⟩, hrest⟩ := h
    obtain ⟨hr1, hr2⟩ := ih tail hrest
    refine ⟨?_, hr2⟩
    intro q hq
    rcases List.mem_cons.mp hq with rfl | hq
    · exact hl
    · exact hr1 q hq

/-- Re-encoding CR/LF-free lines with any one uniform terminator style is
well formed: a uniform style never produces a bare CR followed by LF. -/
lemma wellFormedEnc_uniform (s : EOLStyle) : ∀ (pairs : List (List Nat × EOLStyle))
    (tail : List Nat),
    (∀ p ∈ pairs, ∀ b ∈ Prod.fst p, b ≠ 13 ∧ b ≠ 10) →
    (∀ b ∈ tail, b ≠ 13 ∧ b ≠ 10) →
    wellFormedEnc (pairs.map fun p => (p.1, s)) tail = true := by
  intro pairs
  induction pairs with
  | nil =>
    intro tail _ htail
    rw [List.map_nil, wellFormedEnc]
    simp only [List.all_eq_true, decide_eq_true_eq]
    exact htail
  | cons p rest ih =>
    intro tail hlines htail
    rcases p with ⟨l, sl⟩
    rw [List.map_cons, wellFormedEnc]
    simp only [Bool.and_eq_true, List.all_eq_true, decide_eq_true_eq, Bool.or_eq_true,
      bne_iff_ne, ne_eq, Bool.not_eq_true', decide_eq_false_iff_not]
    refine ⟨⟨hlines (l, sl) (by simp), ?_⟩, ih tail (fun q hq => hlines q (by simp [hq])) htail⟩
    by_cases hs : s = EOLStyle.cr
    · right
      subst hs
      cases rest with
      | nil =>
        simpa [encodeLines] using clean_head_not10 tail htail
      | cons q rest2 =>
        rcases q with ⟨l2, s2⟩
        simp only [List.map_cons, encodeLines]
        cases hl2 : l2 with
        | nil => simp [eolBytes]
        | cons b2 r2 =>
          have hb2 : b2 ≠ 10 := by
            have := hlines (l2, s2) (by simp)
            rw [hl2] at this
            exact (this b2 (by simp)).2
          simpa using hb2
    · left
      exact hs

/-- `Next` on an exhausted token stream reports `false`. -/
lemma Next_nil (s : Scanner) (h : s.tokens = []) : (Scanner.Next s).1 = false := by
  simp [Scanner.Next, h, nextLoop]

/-! ### Concrete evaluation helper -/

/-- Evaluate the pipeline on a stream whose tokens produce exactly one
event. -/
lemma sseEvents_single (rc : Bool) (toks : List (List Nat)) (chunks : List (List Nat))
    (s' : Scanner) (ht : scanTokens false [] chunks = toks)
    (h1 : Scanner.Next ⟨rc, ServerSentEvent.zero, toks⟩ = (true, s'))
    (h2 : (Scanner.Next s').1 = false) :
    sseEvents rc chunks = [s'.next] := by
  unfold sseEvents
  rw [ht, scanEvents_true _ _ h1, scanEvents_false _ h2]

/-- The bytes of the comment line `": hello"`. -/
def commentHello : List Nat := [58, 32, 104, 101, 108, 108, 111]

/-! ### The claims -/

/-- C1: for every input byte sequence and every way of splitting it into
chunks at arbitrary byte offsets (including a boundary falling between the
CR and LF of a CRLF pair), driving the line splitter and event assembler
over the chunked delivery produces exactly the same sequence of
`ServerSentEvent` values as delivering the whole input as one single
chunk. -/
theorem sse_chunk_invariance (rc : Bool) (chunks : List (List Nat)) :
    sseEvents rc chunks = sseEvents rc [chunks.flatten] := by
  unfold sseEvents
  rw [scanTokens_run, scanTokens_run]
  simp

/-- C2 (counterexample): on the comment-only stream `": hello\n\n"` with
comment capture disabled, `Next` returns `true`, not `false` as the claim
states. -/
theorem comment_disabled_spurious_event_counterexample :
    (Scanner.Next ⟨false, ServerSentEvent.zero,
      scanTokens false [] [commentHello ++ [10, 10]]⟩).1 = true := by
  have ht : scanTokens false [] [commentHello ++ [10, 10]] = [commentHello, []] := by
    rw [scanTokens_run]
    decide
  rw [ht]
  decide

/-- C2 (amended): a comment-only stream with comment capture disabled
still makes `Next` report `true`, producing a spurious event all of whose
fields are empty/zero (the comment line sets the non-blank-line flag even
though its content is discarded); this holds both with a terminating
blank line and at plain end of input. -/
theorem comment_disabled_spurious_event :
    sseEvents false [commentHello ++ [10, 10]] = [ServerSentEvent.zero] ∧
    sseEvents false [commentHello] = [ServerSentEvent.zero] ∧
    Scanner.Next ⟨false, ServerSentEvent.zero,
        scanTokens false [] [commentHello ++ [10, 10]]⟩ =
      (true, ⟨false, ServerSentEvent.zero, []⟩) := by
  have ht1 : scanTokens false [] [commentHello ++ [10, 10]] = [commentHello, []] := by
    rw [scanTokens_run]
    decide
  have ht2 : scanTokens false [] [commentHello] = [commentHello] := by
    rw [scanTokens_run]
    decide
  refine ⟨?_, ?_, ?_⟩
  · exact sseEvents_single false [commentHello, []] _
      { readComment := false, next := ServerSentEvent.zero, tokens := [] }
      ht1 (by decide) (by decide)
  · exact sseEvents_single false [commentHello] _
      { readComment := false, next := ServerSentEvent.zero, tokens := [] }
      ht2 (by decide) (by decide)
  · rw [ht1]
    decide

/-- C3 (counterexample): with comment capture enabled, the event produced
from `": hello"` does not have comment `"hello"`: only the leading colon
is stripped, not the following space. -/
theorem comment_keeps_leading_space_counterexample :
    ¬((Scanner.Next ⟨true, ServerSentEvent.zero,
        scanTokens false [] [commentHello ++ [10, 10]]⟩).2.next.Comment =
      [104, 101, 108, 108, 111]) := by
  have ht : scanTokens false [] [commentHello ++ [10, 10]] = [commentHello, []] := by
    rw [scanTokens_run]
    decide
  rw [ht]
  decide

/-- C3 (amended): with comment capture enabled, `": hello"` yields an
event whose comment is `" hello"` (the text after the leading colon, with
the space kept) and whose data is empty. -/
theorem comment_keeps_leading_space :
    sseEvents true [commentHello ++ [10, 10]] =
      [{ ServerSentEvent.zero with Comment := [32, 104, 101, 108, 108, 111] }] := by
  have ht : scanTokens false [] [commentHello ++ [10, 10]] = [commentHello, []] := by
    rw [scanTokens_run]
    decide
  exact sseEvents_single true [commentHello, []] _
    { readComment := true,
      next := { ServerSentEvent.zero with Comment := [32, 104, 101, 108, 108, 111] },
      tokens := [] }
    ht (by decide) (by decide)

/-- C4: whenever the available bytes end with a carriage return as the
last byte, no earlier terminator occurs, and end of input has not been
signalled, `Split` advances by 0 bytes, emits no token, and sets the
pending-carriage-return flag (for either prior flag value). -/
theorem split_pending_cr (p : Bool) (clean : List Nat)
    (hc : ∀ b ∈ clean, b ≠ 13 ∧ b ≠ 10) :
    EOLSplitter.Split ⟨p⟩ (clean ++ [13]) false = (⟨true⟩, 0, none) := by
  have hloop : ∀ (cl acc : List Nat), (∀ b ∈ cl, b ≠ 13 ∧ b ≠ 10) →
      splitLoop false acc (cl ++ [13]) = (true, 0, none) := by
    intro cl
    induction cl with
    | nil =>
      intro acc _
      simp [splitLoop]
    | cons b r ih =>
      intro acc hcl
      obtain ⟨hb13, hb10⟩ := hcl b (by simp)
      simp only [List.cons_append, splitLoop, if_neg hb13, if_neg hb10]
      exact ih (acc ++ [b]) (fun x hx => hcl x (by simp [hx]))
  have hcond : ¬((⟨p⟩ : EOLSplitter).prevCR ∧ (clean ++ [13]).head? = some 10) := by
    intro hcond
    rcases clean with _ | ⟨b, r⟩
    · simp at hcond
    · have hb : b = 10 := by simpa using hcond.2
      exact (hc b (by simp)).2 hb
  unfold EOLSplitter.Split
  rw [if_neg hcond, hloop clean [] hc]

/-- C4 witness: the chunk `"a\r"` before end of input. -/
theorem split_pending_cr_witness :
    EOLSplitter.Split ⟨false⟩ ([97] ++ [13]) false = (⟨true⟩, 0, none) :=
  split_pending_cr false [97] (by decide)

/-- C5: a stream that ends, without any trailing line terminator or blank
line, after a `"data: X"` line: the splitter emits the remaining bytes as
one final unterminated token, and the assembler yields exactly one final
event whose data is `X`. -/
theorem unterminated_final_event (rc : Bool) (X : List Nat) (hne : X ≠ [])
    (hX : ∀ b ∈ X, b ≠ 13 ∧ b ≠ 10)
    (hlast : ∀ b, X.getLast? = some b → isSpaceByte b = false) :
    scanTokens false [] [dataColon ++ X] = [dataColon ++ X] ∧
    sseEvents rc [dataColon ++ X] = [{ ServerSentEvent.zero with Data := X }] := by
  have hclean : ∀ b ∈ dataColon ++ X, b ≠ 13 ∧ b ≠ 10 := by
    intro b hb
    rcases List.mem_append.mp hb with hb | hb
    · simp [dataColon] at hb
      omega
    · exact hX b hb
  have htok : scanTokens false [] [dataColon ++ X] = [dataColon ++ X] := by
    rw [scanTokens_run]
    simp only [List.flatten_cons, List.flatten_nil, List.append_nil]
    unfold splitLines
    rw [splitLinesAux_clean (dataColon ++ X) [] hclean]
    simp [dataColon]
  refine ⟨htok, ?_⟩
  have hnl : nextLoop rc ServerSentEvent.zero [] false [dataColon ++ X] =
      ⟨ServerSentEvent.zero, [X], true, []⟩ := by
    have hstep := nextLoop_data_step rc ServerSentEvent.zero [] false X [] hne hX hlast
    rw [hstep]
    simp [nextLoop]
  have hnext : Scanner.Next ⟨rc, ServerSentEvent.zero, [dataColon ++ X]⟩ =
      (true, ⟨rc, { ServerSentEvent.zero with Data := X }, []⟩) := by
    simp [Scanner.Next, hnl, List.intercalate, List.intersperse_singleton]
  exact sseEvents_single rc [dataColon ++ X] _
    ⟨rc, { ServerSentEvent.zero with Data := X }, []⟩ htok hnext (Next_nil _ rfl)

/-- C5 witness: the stream `"data: X"` (terminated by end of input only)
yields the token `"data: X"` and the single event with data `"X"`. -/
theorem unterminated_final_event_witness :
    scanTokens false [] [dataColon ++ [88]] = [dataColon ++ [88]] ∧
    sseEvents true [dataColon ++ [88]] = [{ ServerSentEvent.zero with Data := [88] }] :=
  unterminated_final_event true [88] (by decide) (by decide) (by decide)

/-- C6: the data field of an event is the payloads of all its `data: `
lines joined with LF in encounter order: a stream of `data:` lines
followed by a blank line yields one event whose data is the LF-join of
the payloads. -/
theorem data_lines_joined (rc : Bool) (ps : List (List Nat)) (hne : ps ≠ [])
    (hps : ∀ p ∈ ps, p ≠ [] ∧ (∀ b ∈ p, b ≠ 13 ∧ b ≠ 10) ∧
      ∀ b, p.getLast? = some b → isSpaceByte b = false) :
    sseEvents rc [(ps.map fun p => dataColon ++ p ++ [10]).flatten ++ [10]] =
      [{ ServerSentEvent.zero with Data := List.intercalate [10] ps }] := by
  have hstream : (ps.map fun p => dataColon ++ p ++ [10]).flatten ++ [10] =
      (((ps.map fun p => dataColon ++ p) ++ [[]]).map fun l => l ++ [10]).flatten := by
    have hfun : ((fun l => l ++ [10]) ∘ fun p => dataColon ++ p) =
        fun p : List Nat => dataColon ++ p ++ [10] := by
      funext p
      simp [Function.comp, List.append_assoc]
    rw [List.map_append, List.flatten_append, List.map_map, hfun]
    simp
  have htok : scanTokens false [] [(ps.map fun p => dataColon ++ p ++ [10]).flatten ++ [10]] =
      (ps.map fun p => dataColon ++ p) ++ [[]] := by
    rw [scanTokens_run]
    simp only [List.flatten_cons, List.flatten_nil, List.append_nil]
    rw [hstream]
    apply splitLines_lf_encode
    intro l hl
    rcases List.mem_append.mp hl with hl | hl
    · obtain ⟨p, hp, rfl⟩ := List.mem_map.mp hl
      intro b hb
      rcases List.mem_append.mp hb with hb | hb
      · simp [dataColon] at hb
        omega
      · exact (hps p hp).2.1 b hb
    · simp at hl
      subst hl
      intro b hb
      simp at hb
  have hnl : nextLoop rc ServerSentEvent.zero [] false
      ((ps.map fun p => dataColon ++ p) ++ [[]]) =
      ⟨ServerSentEvent.zero, ps, true, []⟩ := by
    rw [nextLoop_data_run rc ps ServerSentEvent.zero [] false [[]] hne hps]
    simp only [List.nil_append]
    rw [nextLoop_blank_stop]
  have hnext : Scanner.Next ⟨rc, ServerSentEvent.zero,
      (ps.map fun p => dataColon ++ p) ++ [[]]⟩ =
      (true, ⟨rc, { ServerSentEvent.zero with Data := List.intercalate [10] ps }, []⟩) := by
    simp [Scanner.Next, hnl]
  exact sseEvents_single rc _ _
    ⟨rc, { ServerSentEvent.zero with Data := List.intercalate [10] ps }, []⟩
    htok hnext (Next_nil _ rfl)

/-- C6 witness: `"data: A"`, `"data: B"`, blank line yield one event with
data `"A\nB"`. -/
theorem data_lines_joined_witness :
    sseEvents false [([[65], [66]].map fun p => dataColon ++ p ++ [10]).flatten ++ [10]] =
      [{ ServerSentEvent.zero with Data := List.intercalate [10] [[65], [66]] }] :=
  data_lines_joined false [[65], [66]] (by decide) (by decide)

/-- C7: `"retry: 3000"` sets the retry field to 3000; `"retry: abc"` does
not parse, leaves the field at its prior value (the default zero, or a
value set by an earlier `retry:` line), surfaces no error, and does not
abort parsing of the rest of the event. -/
theorem retry_parse_behavior :
    sseEvents false [[114, 101, 116, 114, 121, 58, 32, 51, 48, 48, 48, 10,
        100, 97, 116, 97, 58, 32, 65, 10, 10]] =
      [{ ServerSentEvent.zero with Data := [65], Retry := 3000 }] ∧
    sseEvents false [[114, 101, 116, 114, 121, 58, 32, 97, 98, 99, 10,
        100, 97, 116, 97, 58, 32, 65, 10, 10]] =
      [{ ServerSentEvent.zero with Data := [65] }] ∧
    sseEvents false [[114, 101, 116, 114, 121, 58, 32, 51, 48, 48, 48, 10,
        114, 101, 116, 114, 121, 58, 32, 97, 98, 99, 10, 10]] =
      [{ ServerSentEvent.zero with Retry := 3000 }] := by
  refine ⟨?_, ?_, ?_⟩
  · exact sseEvents_single false
      [[114, 101, 116, 114, 121, 58, 32, 51, 48, 48, 48], [100, 97, 116, 97, 58, 32, 65], []] _
      ⟨false, { ServerSentEvent.zero with Data := [65], Retry := 3000 }, []⟩
      (by rw [scanTokens_run]; decide) (by decide) (by decide)
  · exact sseEvents_single false
      [[114, 101, 116, 114, 121, 58, 32, 97, 98, 99], [100, 97, 116, 97, 58, 32, 65], []] _
      ⟨false, { ServerSentEvent.zero with Data := [65] }, []⟩
      (by rw [scanTokens_run]; decide) (by decide) (by decide)
  · exact sseEvents_single false
      [[114, 101, 116, 114, 121, 58, 32, 51, 48, 48, 48],
        [114, 101, 116, 114, 121, 58, 32, 97, 98, 99], []] _
      ⟨false, { ServerSentEvent.zero with Retry := 3000 }, []⟩
      (by rw [scanTokens_run]; decide) (by decide) (by decide)

/-- C8: splitting a stream whose lines mix the three terminator styles
produces the same token sequence as splitting the same line contents
normalized to any one single style. -/
theorem eol_style_invariance (pairs : List (List Nat × EOLStyle)) (tail : List Nat)
    (h : wellFormedEnc pairs tail = true) (s : EOLStyle) :
    scanTokens false [] [encodeLines pairs ++ tail] =
      scanTokens false [] [encodeLines (pairs.map fun p => (p.1, s)) ++ tail] := by
  obtain ⟨hlines, htail⟩ := wellFormedEnc_clean pairs tail h
  rw [scanTokens_run, scanTokens_run]
  simp only [List.flatten_cons, List.flatten_nil, List.append_nil]
  rw [splitLines_encode pairs tail h,
    splitLines_encode _ tail (wellFormedEnc_uniform s pairs tail hlines htail)]
  simp [List.map_map, Function.comp]

/-- C8 witness: the stream `"a\r\n" "\r" "b\n" "c"` (CRLF, bare CR, LF,
then an unterminated tail) against its LF-normalized form. -/
theorem eol_style_invariance_witness :
    scanTokens false []
        [encodeLines [([97], EOLStyle.crlf), ([], EOLStyle.cr), ([98], EOLStyle.lf)] ++ [99]] =
      scanTokens false []
        [encodeLines ([([97], EOLStyle.crlf), ([], EOLStyle.cr),
          ([98], EOLStyle.lf)].map fun p => (p.1, EOLStyle.lf)) ++ [99]] :=
  eol_style_invariance [([97], EOLStyle.crlf), ([], EOLStyle.cr), ([98], EOLStyle.lf)]
    [99] (by decide) EOLStyle.lf

/-- C9: at the start of every `Next` call the working event is reset to
the zero value before any line is processed: the result of `Next` is
independent of whatever event the scanner held before the call, and when
no event is produced the stored event is the zero value. -/
theorem next_resets_working_event (rc : Bool) (toks : List (List Nat))
    (e₁ e₂ : ServerSentEvent) :
    Scanner.Next ⟨rc, e₁, toks⟩ = Scanner.Next ⟨rc, e₂, toks⟩ ∧
    ((Scanner.Next ⟨rc, e₁, toks⟩).1 = false →
      (Scanner.Next ⟨rc, e₁, toks⟩).2.next = ServerSentEvent.zero) := by
  constructor
  · rfl
  · intro h
    unfold Scanner.Next at h ⊢
    by_cases hs : (nextLoop rc ServerSentEvent.zero [] false toks).seen = true
    · rw [if_pos hs] at h
      simp at h
    · rw [if_neg hs]

/-- C9 witness: a scanner holding a fully populated stale event behaves as
one holding the zero event. -/
theorem next_resets_working_event_witness :
    Scanner.Next ⟨false, ⟨[1], [2], [3], 4, [5]⟩, [[]]⟩ =
      Scanner.Next ⟨false, ServerSentEvent.zero, [[]]⟩ ∧
    ((Scanner.Next ⟨false, ⟨[1], [2], [3], 4, [5]⟩, [[]]⟩).1 = false →
      (Scanner.Next ⟨false, ⟨[1], [2], [3], 4, [5]⟩, [[]]⟩).2.next = ServerSentEvent.zero) :=
  next_resets_working_event false [[]] ⟨[1], [2], [3], 4, [5]⟩ ServerSentEvent.zero

/-- C10: a data line whose payload is empty or white space only
(`"data: "` or `"data:"`) is discarded as an unknown line — the trimmed
line no longer carries the literal prefix `"data: "` — so it contributes
no empty entry to the data accumulator. -/
theorem blank_data_payload_discarded :
    trimSpace [100, 97, 116, 97, 58, 32] = [100, 97, 116, 97, 58] ∧
    dataColon.isPrefixOf [100, 97, 116, 97, 58] = false ∧
    sseEvents false [[100, 97, 116, 97, 58, 32, 10, 100, 97, 116, 97, 58, 32, 65, 10, 10]] =
      [{ ServerSentEvent.zero with Data := [65] }] ∧
    sseEvents false [[100, 97, 116, 97, 58, 10, 100, 97, 116, 97, 58, 32, 65, 10, 10]] =
      [{ ServerSentEvent.zero with Data := [65] }] := by
  refine ⟨by decide, by decide, ?_, ?_⟩
  · exact sseEvents_single false
      [[100, 97, 116, 97, 58, 32], [100, 97, 116, 97, 58, 32, 65], []] _
      ⟨false, { ServerSentEvent.zero with Data := [65] }, []⟩
      (by rw [scanTokens_run]; decide) (by decide) (by decide)
  · exact sseEvents_single false
      [[100, 97, 116, 97, 58], [100, 97, 116, 97, 58, 32, 65], []] _
      ⟨false, { ServerSentEvent.zero with Data := [65] }, []⟩
      (by rw [scanTokens_run]; decide) (by decide) (by decide)
